import Mathlib

/-!
Verification of the bolly word-unscramble game (src/script.js).

The file shallowly embeds the data model and the operations of the game:
the catalog lookup (DataLoader), the progress store (State) and the puzzle
engine (Game).  JavaScript objects used as string-keyed maps are modelled
as functions, JS numbers holding coin/star/level values as `Int`, arrays
as lists, and `Math.random()` draws as an externally supplied stream of
natural numbers reduced modulo the requested bound.
-/

/-- Pack metadata record as served by the catalog (fields used by the
logic: `name`, the optional explicit `id`, the star-eligibility flag
`is_star`, the star gate `star` and the level count `lvls`). -/
structure RawPack where
  name : String
  id : Option String
  is_star : Bool
  star : Option Int
  lvls : Int
deriving DecidableEq

/-- One entry of the scrambled letter pool: a character plus the stable
identity the source attaches at creation (`l-$i`, modelled as the index `i`). -/
structure Letter where
  char : Char
  id : Nat
deriving DecidableEq

/-- The ephemeral attempt state owned by the Game object: the normalized
target word, the scrambled pool, and one slot per target character holding
either an index into the pool or nothing (JS `null`). -/
structure GameState where
  targetWord : List Char
  scrambledLetters : List Letter
  selectedIndices : List (Option Nat)
deriving DecidableEq

/-- The persistent progress record: coins, stars, the per-pack unlock
frontier and the per-pack completed-level map. -/
structure ProgressState where
  coins : Int
  stars : Int
  unlocked : String → Option Int
  completed : String → Int → Bool

/-- Result of win evaluation. -/
inductive WinResult where
  | Win
  | Mismatch
  | Incomplete
deriving DecidableEq

/-- Character of the pool entry at a given index (`scrambledLetters[idx].char`);
out-of-range access, which would throw in the source, is given a placeholder. -/
def charOfPool (pool : List Letter) (idx : Nat) : Char :=
  ((pool.get? idx).map Letter.char).getD '?'

/-- Number of `true` entries of a boolean list. -/
def countTrue : List Bool → Nat
  | [] => 0
  | b :: l => (if b then 1 else 0) + countTrue l

/-- Whether a slot content matches the required character: an empty slot
never matches, a filled slot matches when its pool letter equals it. -/
def corr (pool : List Letter) (o : Option Nat) (c : Char) : Bool :=
  match o with
  | none => false
  | some idx => charOfPool pool idx == c

/-- Per-slot correctness report of an assignment against a target word. -/
def corrList (pool : List Letter) (sel : List (Option Nat)) (target : List Char) : List Bool :=
  List.zipWith (corr pool) sel target

/-- Number of slots currently holding the globally correct letter. -/
def correctCount (g : GameState) : Nat :=
  countTrue (corrList g.scrambledLetters g.selectedIndices g.targetWord)

/-- Set the first empty slot to the given pool index, as the source does via
`selectedIndices.indexOf(null)` followed by an assignment; identity when no
slot is empty. -/
def fillFirstEmpty (l : List (Option Nat)) (v : Nat) : List (Option Nat) :=
  match l with
  | [] => []
  | none :: rest => some v :: rest
  | some x :: rest => some x :: fillFirstEmpty rest v

/-- Clear the first slot holding the given pool index, as the source does via
`selectedIndices.indexOf(finalScrambledIdx)` followed by an assignment of
`null`; identity when the index is not placed. -/
def clearFirst (l : List (Option Nat)) (v : Nat) : List (Option Nat) :=
  match l with
  | [] => []
  | none :: rest => none :: clearFirst rest v
  | some x :: rest => if x = v then none :: rest else some x :: clearFirst rest v

/-- Swap two positions of a list (the destructuring swap of the source
shuffle loop); identity when an index is out of range, which never happens
inside the loop. -/
def swapL (l : List Char) (i j : Nat) : List Char :=
  if h : i < l.length ∧ j < l.length then
    (l.set i (l.get ⟨j, h.2⟩)).set j (l.get ⟨i, h.1⟩)
  else l

/-- The Fisher-Yates loop of `Game.reset`: for `i` from `n-1` down to `1`,
swap position `i` with a random position `j` in `[0, i]`.  The random draw
`Math.floor(Math.random() * (i + 1))` is modelled by `rand i % (i + 1)`. -/
def fyAux : List Char → Nat → (Nat → Nat) → List Char
  | l, 0, _ => l
  | l, i + 1, rand => fyAux (swapL l (i + 1) (rand (i + 1) % (i + 2))) i rand

/-- Fisher-Yates shuffle as performed by `Game.reset`. -/
def fisherYates (l : List Char) (rand : Nat → Nat) : List Char :=
  fyAux l (l.length - 1) rand

namespace DataLoader

/-- The lookup `DataLoader.getPack`: searches `packs` and then `events` for
an item whose `name` equals the requested identifier. -/
def getPack (packs events : List RawPack) (pid : String) : Option RawPack :=
  match packs.find? (fun p => p.name == pid) with
  | some p => some p
  | none => events.find? (fun e => e.name == pid)

/-- Modelled from the spec: lookup by the normalized identifier, the
explicit `id` field falling back to `name` when absent, as the spec words
of claim C8 describe `resolve(id)`.  Compared against `getPack` above. -/
def getPackSpec (packs events : List RawPack) (pid : String) : Option RawPack :=
  match packs.find? (fun p => p.id.getD p.name == pid) with
  | some p => some p
  | none => events.find? (fun e => e.id.getD e.name == pid)

end DataLoader

namespace State

/-- `State.completeLevel`: records the completion, advances the unlock
frontier when the finished level sits exactly at it, and awards one star on
the first-ever completion of a level of a star-eligible pack. -/
def completeLevel (packs events : List RawPack) (packId : String) (levelIndex : Int)
    (p : ProgressState) : ProgressState :=
  let isFirstCompletion : Bool := ! p.completed packId levelIndex
  let completed' : String → Int → Bool := fun pid l =>
    if pid = packId ∧ l = levelIndex then true else p.completed pid l
  let unlocked' : String → Option Int :=
    if p.unlocked packId = some levelIndex then
      fun pid => if pid = packId then some (levelIndex + 1) else p.unlocked pid
    else p.unlocked
  let starFlag : Bool :=
    match DataLoader.getPack packs events packId with
    | some pk => pk.is_star
    | none => false
  let stars' : Int := if isFirstCompletion && starFlag then p.stars + 1 else p.stars
  { p with completed := completed', unlocked := unlocked', stars := stars' }

/-- `State.deductCoins`: spend when the balance suffices, reporting success. -/
def deductCoins (amount : Int) (p : ProgressState) : Bool × ProgressState :=
  if amount ≤ p.coins then (true, { p with coins := p.coins - amount })
  else (false, p)

/-- `State.addCoins`. -/
def addCoins (amount : Int) (p : ProgressState) : ProgressState :=
  { p with coins := p.coins + amount }

end State

namespace Game

/-- Normalization performed by `Game.init`: strip whitespace, upper-case. -/
def normalizeWord (rawWord : String) : List Char :=
  (rawWord.data.filter (fun c => ! c.isWhitespace)).map Char.toUpper

/-- `Game.reset`: an all-empty slot assignment and a freshly shuffled pool,
each pool entry tagged with its index as stable identity. -/
def reset (targetWord : List Char) (rand : Nat → Nat) : GameState :=
  let letters := fisherYates targetWord rand
  { targetWord := targetWord
    scrambledLetters := letters.enum.map (fun pr => { char := pr.2, id := pr.1 })
    selectedIndices := List.replicate targetWord.length none }

/-- `Game.isScrambledIndexSelected`: whether a pool index is placed in a slot. -/
def isScrambledIndexSelected (g : GameState) (i : Nat) : Prop :=
  some i ∈ g.selectedIndices

instance (g : GameState) (i : Nat) : Decidable (isScrambledIndexSelected g i) := by
  unfold isScrambledIndexSelected
  infer_instance

/-- `Game.selectLetter`: place the given pool index into the first empty
slot; no-op when every slot is filled. -/
def selectLetter (g : GameState) (scrambledIndex : Nat) : GameState :=
  { g with selectedIndices := fillFirstEmpty g.selectedIndices scrambledIndex }

/-- `Game.deselectLetter`: clear the given slot unconditionally. -/
def deselectLetter (g : GameState) (slotIndex : Nat) : GameState :=
  { g with selectedIndices := g.selectedIndices.set slotIndex none }

/-- The concatenation built by `Game.checkWin` from the placed letters in
slot order. -/
def currentWord (g : GameState) : List Char :=
  g.selectedIndices.map (fun o =>
    match o with
    | some idx => charOfPool g.scrambledLetters idx
    | none => '?')

/-- `Game.checkWin` as an observer: Incomplete when a slot is empty, else
Win exactly when the placed letters spell the target word; the source
mutates nothing in either the win or the mismatch branch. -/
def checkWin (g : GameState) : WinResult :=
  if none ∈ g.selectedIndices then WinResult.Incomplete
  else if currentWord g = g.targetWord then WinResult.Win
  else WinResult.Mismatch

/-- Whether the hint loop of `Game.useHint` stops at slot `i`: the slot is
empty or holds a letter different from the target character there. -/
def slotNeedsFix (g : GameState) (i : Nat) : Bool :=
  ! corr g.scrambledLetters (g.selectedIndices.getD i none) (g.targetWord.getD i '?')

/-- The first-wrong-slot scan of `Game.useHint`, fuelled form of the source
for-loop over target indices starting at `i`. -/
def findFixAux (g : GameState) : Nat → Nat → Option Nat
  | 0, _ => none
  | fuel + 1, i =>
    if i < g.targetWord.length then
      if slotNeedsFix g i then some i else findFixAux g fuel (i + 1)
    else none

/-- Index of the first slot that is empty or wrong (`slotToFix`). -/
def firstFix (g : GameState) : Option Nat :=
  findFixAux g g.targetWord.length 0

/-- The pool scan of `Game.useHint`: walk the pool looking for the required
character, returning the first unplaced match immediately and otherwise the
last placed match seen (the source keeps overwriting `usedScrambledIdx`). -/
def hintAux (g : GameState) (c : Char) : Nat → Nat → Option Nat → Option Nat
  | 0, _, used => used
  | fuel + 1, i, used =>
    if i < g.scrambledLetters.length then
      if charOfPool g.scrambledLetters i = c then
        if isScrambledIndexSelected g i then hintAux g c fuel (i + 1) (some i)
        else some i
      else hintAux g c fuel (i + 1) used
    else used

/-- The chosen pool index for a hint character (`finalScrambledIdx`). -/
def findHintIdx (g : GameState) (c : Char) : Option Nat :=
  hintAux g c g.scrambledLetters.length 0 none

/-- Body of `Game.useHint` after the coin deduction succeeded: fix the
first empty-or-wrong slot with a pool letter of the required character,
unplacing that letter from its previous slot when it was already used. -/
def useHintBody (g : GameState) : GameState :=
  match firstFix g with
  | none => g
  | some slotToFix =>
    let correctChar := g.targetWord.getD slotToFix '?'
    match findHintIdx g correctChar with
    | none => g
    | some finalIdx =>
      { g with selectedIndices :=
          (clearFirst g.selectedIndices finalIdx).set slotToFix (some finalIdx) }

/-- `Game.useHint`: deduct 20 coins and, on success, apply the hint body. -/
def useHint (p : ProgressState) (g : GameState) : ProgressState × GameState :=
  let r := State.deductCoins 20 p
  if r.1 then (r.2, useHintBody g) else (r.2, g)

/-- `Game.handleWin`: complete the level, then award the flat 10 coins. -/
def handleWin (packs events : List RawPack) (packId : String) (levelIndex : Int)
    (p : ProgressState) : ProgressState :=
  State.addCoins 10 (State.completeLevel packs events packId levelIndex p)

/-- `Game.skipLevel`: deduct 50 coins and, on success, complete the level
directly (the source does not route through `handleWin`). -/
def skipLevel (packs events : List RawPack) (packId : String) (levelIndex : Int)
    (p : ProgressState) : ProgressState :=
  let r := State.deductCoins 50 p
  if r.1 then State.completeLevel packs events packId levelIndex r.2 else r.2

/-- The keyboard scan of `Game.handleInput`: the first pool index whose
character matches the pressed key and which is not already placed. -/
def findKeyAux (g : GameState) (key : Char) : Nat → Nat → Option Nat
  | 0, _ => none
  | fuel + 1, i =>
    if i < g.scrambledLetters.length then
      if charOfPool g.scrambledLetters i = key ∧ ¬ isScrambledIndexSelected g i then some i
      else findKeyAux g key fuel (i + 1)
    else none

/-- The letter-key branch of `Game.handleInput`: select the first matching
unplaced pool index, if any. -/
def handleLetterKey (g : GameState) (key : Char) : GameState :=
  match findKeyAux g key g.scrambledLetters.length 0 with
  | some i => selectLetter g i
  | none => g

end Game

/-- Pool indices currently placed in slots. -/
def placedIndices (g : GameState) : List Nat :=
  g.selectedIndices.filterMap id

/-- The at-most-once occupancy invariant: no pool index occupies two slots. -/
def AtMostOnce (g : GameState) : Prop :=
  (placedIndices g).Nodup

instance (g : GameState) : Decidable (AtMostOnce g) := by
  unfold AtMostOnce
  infer_instance

/-- Concrete full-but-wrong attempt used as witness data. -/
def gMismatch : GameState :=
  { targetWord := ['A', 'B']
    scrambledLetters := [⟨'A', 0⟩, ⟨'B', 1⟩]
    selectedIndices := [some 1, some 0] }

/-- Concrete won attempt used as witness data. -/
def gWon : GameState :=
  { targetWord := ['A', 'B']
    scrambledLetters := [⟨'A', 0⟩, ⟨'B', 1⟩]
    selectedIndices := [some 0, some 1] }

/-- Concrete attempt with one letter placed and one slot empty. -/
def gDup : GameState :=
  { targetWord := ['A', 'B']
    scrambledLetters := [⟨'A', 0⟩, ⟨'B', 1⟩]
    selectedIndices := [some 0, none] }

/-- Concrete fresh attempt on the word AB. -/
def gFresh : GameState :=
  { targetWord := ['A', 'B']
    scrambledLetters := [⟨'A', 0⟩, ⟨'B', 1⟩]
    selectedIndices := [none, none] }

/-- Attempt on AAB where both pool copies of A are placed, the second copy
sitting in a correctly solved slot; reachable by placing B, A, A and then
deselecting the first slot. -/
def gHintEx : GameState :=
  { targetWord := ['A', 'A', 'B']
    scrambledLetters := [⟨'A', 0⟩, ⟨'A', 1⟩, ⟨'B', 2⟩]
    selectedIndices := [none, some 1, some 0] }

/-- Progress record holding exactly the hint cost. -/
def pTwenty : ProgressState :=
  { coins := 20, stars := 0, unlocked := fun _ => none, completed := fun _ _ => false }

/-- Progress record with the default starting balance. -/
def pHundred : ProgressState :=
  { coins := 100, stars := 0, unlocked := fun _ => some 0, completed := fun _ _ => false }

/-- Progress record below the hint cost (spec scenario: balance 15). -/
def pFifteen : ProgressState :=
  { coins := 15, stars := 0, unlocked := fun _ => some 0, completed := fun _ _ => false }

/-- Progress record in which every level is already completed. -/
def pAllDone : ProgressState :=
  { coins := 0, stars := 0, unlocked := fun _ => some 0, completed := fun _ _ => true }

/-- Star-eligible pack used as witness data. -/
def pkClassic : RawPack :=
  { name := "Classic", id := none, is_star := true, star := none, lvls := 3 }

/-- Pack whose explicit id differs from its name. -/
def pkAlias : RawPack :=
  { name := "Classic", id := some "pack1", is_star := false, star := none, lvls := 3 }

section Lemmas

/-- Setting one position of a list replaces exactly that element in the
underlying multiset. -/
lemma coe_set_add (l : List Char) (n : Nat) (a : Char) (h : n < l.length) :
    ((l.set n a : List Char) : Multiset Char) + {l.get ⟨n, h⟩} =
      (l : Multiset Char) + {a} := by
  induction l generalizing n with
  | nil => simp at h
  | cons x xs ih =>
    cases n with
    | zero =>
      simp only [List.set_cons_zero, List.get]
      rw [← Multiset.cons_coe, ← Multiset.cons_coe]
      rw [Multiset.cons_add, Multiset.cons_add]
      rw [add_comm ((xs : Multiset Char)) ({x} : Multiset Char),
        add_comm ((xs : Multiset Char)) ({a} : Multiset Char)]
      rw [Multiset.singleton_add, Multiset.singleton_add]
      exact Multiset.cons_swap a x (xs : Multiset Char)
    | succ n =>
      simp only [List.set_cons_succ, List.get]
      rw [← Multiset.cons_coe, ← Multiset.cons_coe]
      rw [Multiset.cons_add, Multiset.cons_add]
      have := ih n (by simpa using h)
      rw [this]

/-- The swap of the shuffle loop preserves the letter multiset. -/
lemma swapL_coe (l : List Char) (i j : Nat) :
    ((swapL l i j : List Char) : Multiset Char) = (l : Multiset Char) := by
  unfold swapL
  split
  case isTrue h =>
    have h1 := coe_set_add (l.set i (l.get ⟨j, h.2⟩)) j (l.get ⟨i, h.1⟩)
      (by simpa using h.2)
    have hg : (l.set i (l.get ⟨j, h.2⟩)).get ⟨j, by simpa using h.2⟩ = l.get ⟨j, h.2⟩ := by
      simp only [List.get_eq_getElem, List.getElem_set]
      split <;> rfl
    rw [hg] at h1
    have h2 := coe_set_add l i (l.get ⟨j, h.2⟩) h.1
    rw [h2] at h1
    exact add_right_cancel h1
  case isFalse h => rfl

/-- The whole Fisher-Yates loop preserves the letter multiset. -/
lemma fyAux_coe (i : Nat) : ∀ (l : List Char) (rand : Nat → Nat),
    ((fyAux l i rand : List Char) : Multiset Char) = (l : Multiset Char) := by
  induction i with
  | zero => intro l rand; rfl
  | succ i ih =>
    intro l rand
    show ((fyAux (swapL l (i + 1) (rand (i + 1) % (i + 2))) i rand : List Char) : Multiset Char) = _
    rw [ih, swapL_coe]

/-- The shuffled output of `Game.reset` is multiset-equal to its input. -/
lemma fisherYates_coe (l : List Char) (rand : Nat → Nat) :
    ((fisherYates l rand : List Char) : Multiset Char) = (l : Multiset Char) :=
  fyAux_coe (l.length - 1) l rand

/-- Tagging pool entries with their index and reading the characters back
returns the original character list. -/
lemma enumFrom_map_char (n : Nat) (l : List Char) :
    ((List.enumFrom n l).map (fun pr => Letter.mk pr.2 pr.1)).map Letter.char = l := by
  induction l generalizing n with
  | nil => rfl
  | cons x xs ih =>
    simp only [List.enumFrom, List.map_cons]
    rw [ih]

end Lemmas

/-- C1: `Game.checkWin` reports Win exactly when every slot is filled and
the placed letters spell the target word in slot order; a full assignment
that does not spell the target reports Mismatch (the source mutates no
attempt state in that branch, so the player may keep editing). -/
theorem checkWin_win_iff (g : GameState) :
    (Game.checkWin g = WinResult.Win ↔
      (∀ o ∈ g.selectedIndices, o ≠ none) ∧ Game.currentWord g = g.targetWord) ∧
    ((∀ o ∈ g.selectedIndices, o ≠ none) → Game.currentWord g ≠ g.targetWord →
      Game.checkWin g = WinResult.Mismatch) := by
  have hfull : (∀ o ∈ g.selectedIndices, o ≠ none) ↔ none ∉ g.selectedIndices := by
    constructor
    · intro h hmem; exact h none hmem rfl
    · intro h o hmem heq; exact h (heq ▸ hmem)
  constructor
  · unfold Game.checkWin
    split
    case isTrue hmem =>
      constructor
      · intro h; cases h
      · rintro ⟨h1, _⟩; exact absurd hmem (hfull.mp h1)
    case isFalse hmem =>
      split
      case isTrue hw => simp [hfull, hmem, hw]
      case isFalse hw =>
        constructor
        · intro h; cases h
        · rintro ⟨_, h2⟩; exact absurd h2 hw
  · intro h1 h2
    unfold Game.checkWin
    rw [if_neg (hfull.mp h1), if_neg h2]

/-- Witness for C1 at a concrete full-but-wrong assignment. -/
theorem checkWin_win_iff_witness : Game.checkWin gMismatch = WinResult.Mismatch :=
  (checkWin_win_iff gMismatch).2 (by decide) (by decide)

/-- C2: for every non-empty raw word, `Game.reset` on the normalized target
word produces a pool whose character multiset equals that of the target,
and a slot assignment of the right length with every slot empty, for every
stream of random draws. -/
theorem reset_pool_perm (rawWord : String) (rand : Nat → Nat) (h : rawWord ≠ "") :
    (((Game.reset (Game.normalizeWord rawWord) rand).scrambledLetters.map Letter.char :
        List Char) : Multiset Char) =
      ((Game.normalizeWord rawWord : List Char) : Multiset Char) ∧
    (Game.reset (Game.normalizeWord rawWord) rand).selectedIndices.length =
      (Game.normalizeWord rawWord).length ∧
    ∀ o ∈ (Game.reset (Game.normalizeWord rawWord) rand).selectedIndices, o = none := by
  refine ⟨?_, ?_, ?_⟩
  · show (((fisherYates (Game.normalizeWord rawWord) rand).enum.map
        (fun pr => Letter.mk pr.2 pr.1)).map Letter.char : Multiset Char) = _
    rw [List.enum, enumFrom_map_char, fisherYates_coe]
  · exact List.length_replicate _ _
  · intro o hmem
    exact List.eq_of_mem_replicate hmem

/-- Witness for C2 at the concrete raw word "RA JA" and a constant stream. -/
theorem reset_pool_perm_witness :
    (((Game.reset (Game.normalizeWord "RA JA") (fun _ => 0)).scrambledLetters.map Letter.char :
        List Char) : Multiset Char) =
      ((Game.normalizeWord "RA JA" : List Char) : Multiset Char) ∧
    (Game.reset (Game.normalizeWord "RA JA") (fun _ => 0)).selectedIndices.length =
      (Game.normalizeWord "RA JA").length :=
  ⟨(reset_pool_perm "RA JA" (fun _ => 0) (by decide)).1,
   (reset_pool_perm "RA JA" (fun _ => 0) (by decide)).2.1⟩

/-- C7: `State.deductCoins` returns true and decreases the balance by
exactly the cost when the balance suffices, and otherwise returns false
leaving the whole progress record unchanged; stars, unlock frontier and
completion map are never touched. -/
theorem deductCoins_spec (amount : Int) (p : ProgressState) :
    (amount ≤ p.coins →
      State.deductCoins amount p = (true, { p with coins := p.coins - amount })) ∧
    (p.coins < amount → State.deductCoins amount p = (false, p)) ∧
    (State.deductCoins amount p).2.stars = p.stars ∧
    (State.deductCoins amount p).2.unlocked = p.unlocked ∧
    (State.deductCoins amount p).2.completed = p.completed := by
  unfold State.deductCoins
  refine ⟨fun h => if_pos h, fun h => if_neg (by omega), ?_, ?_, ?_⟩ <;> split <;> rfl

/-- Witness for C7: the spec scenario (balance 15, cost 20) declines and
leaves the record unchanged, while a sufficient balance spends exactly 20. -/
theorem deductCoins_spec_witness :
    State.deductCoins 20 pFifteen = (false, pFifteen) ∧
    State.deductCoins 20 pHundred = (true, { pHundred with coins := 80 }) :=
  ⟨(deductCoins_spec 20 pFifteen).2.1 (by decide),
   (deductCoins_spec 20 pHundred).1 (by decide)⟩

/-- C4: `State.completeLevel` increments stars by exactly one precisely
when the level was not previously completed and the pack resolves to a
star-eligible one; otherwise stars are unchanged, and a repeated completion
of the same level never re-awards a star. -/
theorem completeLevel_star_award (packs events : List RawPack) (packId : String)
    (levelIndex : Int) (p : ProgressState) :
    ((State.completeLevel packs events packId levelIndex p).stars = p.stars + 1 ↔
      (p.completed packId levelIndex = false ∧
        ∃ pk, DataLoader.getPack packs events packId = some pk ∧ pk.is_star = true)) ∧
    ((State.completeLevel packs events packId levelIndex p).stars = p.stars + 1 ∨
      (State.completeLevel packs events packId levelIndex p).stars = p.stars) ∧
    (State.completeLevel packs events packId levelIndex
        (State.completeLevel packs events packId levelIndex p)).stars =
      (State.completeLevel packs events packId levelIndex p).stars := by
  have hplus : p.stars + 1 ≠ p.stars := by omega
  refine ⟨?_, ?_, ?_⟩
  · show (if (! p.completed packId levelIndex) &&
        (match DataLoader.getPack packs events packId with
         | some pk => pk.is_star
         | none => false) then p.stars + 1 else p.stars) = p.stars + 1 ↔ _
    rcases hgp : DataLoader.getPack packs events packId with _ | pk
    · cases hcp : p.completed packId levelIndex <;> simp [hcp]
    · cases hcp : p.completed packId levelIndex <;>
        cases hst : pk.is_star <;> simp [hcp, hst, hplus]
  · show (if _ then p.stars + 1 else p.stars) = p.stars + 1 ∨
      (if _ then p.stars + 1 else p.stars) = p.stars
    split
    · exact Or.inl rfl
    · exact Or.inr rfl
  · have hdone : (State.completeLevel packs events packId levelIndex p).completed
        packId levelIndex = true := by
      show (if packId = packId ∧ levelIndex = levelIndex then true
        else p.completed packId levelIndex) = true
      rw [if_pos ⟨rfl, rfl⟩]
    show (if (! (State.completeLevel packs events packId levelIndex p).completed
          packId levelIndex) && _ then _ + 1 else _) = _
    rw [hdone]
    simp

/-- Witness for C4: first completion of level 0 of the star-eligible pack
awards exactly one star, and completing it again does not. -/
theorem completeLevel_star_award_witness :
    (State.completeLevel [pkClassic] [] "Classic" 0 pHundred).stars = pHundred.stars + 1 ∧
    (State.completeLevel [pkClassic] [] "Classic" 0
        (State.completeLevel [pkClassic] [] "Classic" 0 pHundred)).stars =
      (State.completeLevel [pkClassic] [] "Classic" 0 pHundred).stars :=
  ⟨(completeLevel_star_award [pkClassic] [] "Classic" 0 pHundred).1.mpr
      ⟨rfl, pkClassic, rfl, rfl⟩,
   (completeLevel_star_award [pkClassic] [] "Classic" 0 pHundred).2.2⟩

/-- C5: `State.completeLevel` advances the unlock frontier of the completed
pack to `levelIndex + 1` exactly when it currently equals `levelIndex`,
leaves every other frontier unchanged, never decreases any frontier, and
only grows the completed map. -/
theorem completeLevel_frontier (packs events : List RawPack) (packId : String)
    (levelIndex : Int) (p : ProgressState) :
    ((State.completeLevel packs events packId levelIndex p).unlocked packId =
      (if p.unlocked packId = some levelIndex then some (levelIndex + 1)
       else p.unlocked packId)) ∧
    (∀ pid, pid ≠ packId →
      (State.completeLevel packs events packId levelIndex p).unlocked pid =
        p.unlocked pid) ∧
    (∀ pid v, p.unlocked pid = some v →
      ∃ w, (State.completeLevel packs events packId levelIndex p).unlocked pid = some w ∧
        v ≤ w) ∧
    (∀ pid l, p.completed pid l = true →
      (State.completeLevel packs events packId levelIndex p).completed pid l = true) := by
  refine ⟨?_, ?_, ?_, ?_⟩
  · show (if p.unlocked packId = some levelIndex then
        fun pid => if pid = packId then some (levelIndex + 1) else p.unlocked pid
      else p.unlocked) packId = _
    split
    · simp
    · rfl
  · intro pid hne
    show (if p.unlocked packId = some levelIndex then
        fun q => if q = packId then some (levelIndex + 1) else p.unlocked q
      else p.unlocked) pid = p.unlocked pid
    split
    · simp [hne]
    · rfl
  · intro pid v hv
    show ∃ w, (if p.unlocked packId = some levelIndex then
        fun q => if q = packId then some (levelIndex + 1) else p.unlocked q
      else p.unlocked) pid = some w ∧ v ≤ w
    split
    case isTrue hfr =>
      by_cases hpid : pid = packId
      · subst hpid
        rw [hv] at hfr
        have hveq : v = levelIndex := by exact Option.some.inj hfr
        exact ⟨levelIndex + 1, by simp, by omega⟩
      · exact ⟨v, by simp only [if_neg hpid]; exact hv, le_refl v⟩
    case isFalse => exact ⟨v, hv, le_refl v⟩
  · intro pid l hl
    show (if pid = packId ∧ l = levelIndex then true else p.completed pid l) = true
    split
    · rfl
    · exact hl

/-- Witness for C5: with the frontier of the pack at 0, completing level 0
advances it to 1, and the completed set contains the completion. -/
theorem completeLevel_frontier_witness :
    (State.completeLevel [pkClassic] [] "Classic" 0 pHundred).unlocked "Classic" = some 1 ∧
    (∃ w, (State.completeLevel [pkClassic] [] "Classic" 0 pHundred).unlocked "Other" =
      some w ∧ 0 ≤ w) :=
  ⟨by
    have h := (completeLevel_frontier [pkClassic] [] "Classic" 0 pHundred).1
    rw [h]; rfl,
   (completeLevel_frontier [pkClassic] [] "Classic" 0 pHundred).2.2.1 "Other" 0 rfl⟩

/-- C6 counterexample: a skip from the default balance of 100 coins leaves
50 coins, not the 60 the claim's net change of -40 would give; the source
`Game.skipLevel` calls `State.completeLevel` directly and never pays the
10-coin win reward. -/
theorem skipLevel_no_reward :
    pHundred.coins = 100 ∧
    (Game.skipLevel [pkClassic] [] "Classic" 0 pHundred).coins = 50 ∧
    (Game.skipLevel [pkClassic] [] "Classic" 0 pHundred).coins ≠ pHundred.coins - 40 := by
  refine ⟨rfl, by decide, by decide⟩

/-- C6 amended: a skip with at least 50 coins deducts exactly 50 and then
performs the same completion bookkeeping as a win via `State.completeLevel`
(marking the level completed), but does not invoke the 10-coin win reward,
so the net coin change is -50; the normal win path `Game.handleWin` does
pay the flat 10 coins. -/
theorem skipLevel_spec (packs events : List RawPack) (packId : String)
    (levelIndex : Int) (p : ProgressState) (h : 50 ≤ p.coins) :
    Game.skipLevel packs events packId levelIndex p =
      State.completeLevel packs events packId levelIndex { p with coins := p.coins - 50 } ∧
    (Game.skipLevel packs events packId levelIndex p).coins = p.coins - 50 ∧
    (Game.skipLevel packs events packId levelIndex p).completed packId levelIndex = true ∧
    (Game.handleWin packs events packId levelIndex p).coins = p.coins + 10 := by
  have hskip : Game.skipLevel packs events packId levelIndex p =
      State.completeLevel packs events packId levelIndex { p with coins := p.coins - 50 } := by
    unfold Game.skipLevel State.deductCoins
    rw [if_pos h]
    rfl
  refine ⟨hskip, ?_, ?_, rfl⟩
  · rw [hskip]; rfl
  · rw [hskip]
    show (if packId = packId ∧ levelIndex = levelIndex then true else _) = true
    rw [if_pos ⟨rfl, rfl⟩]

/-- Witness for C6 at the concrete starting balance of 100 coins. -/
theorem skipLevel_spec_witness :
    (Game.skipLevel [pkClassic] [] "Classic" 0 pHundred).completed "Classic" 0 = true ∧
    (Game.handleWin [pkClassic] [] "Classic" 0 pHundred).coins = pHundred.coins + 10 :=
  ⟨(skipLevel_spec [pkClassic] [] "Classic" 0 pHundred (by decide)).2.2.1,
   (skipLevel_spec [pkClassic] [] "Classic" 0 pHundred (by decide)).2.2.2⟩

/-- C8 counterexample: for a pack whose explicit id field differs from its
name, `DataLoader.getPack` queried with that identifier finds nothing,
while the spec-modelled identifier lookup returns the pack; the source
compares only the `name` field. -/
theorem getPack_ignores_id :
    DataLoader.getPack [pkAlias] [] "pack1" = none ∧
    pkAlias.id.getD pkAlias.name = "pack1" ∧
    DataLoader.getPackSpec [pkAlias] [] "pack1" = some pkAlias := by
  refine ⟨by decide, rfl, by decide⟩

/-- C8 amended: `DataLoader.getPack` returns a pack whose `name` field
equals the requested identifier, searching the packs sequence first and
then the events sequence; the explicit id field is not consulted.  When it
returns nothing, no pack or event carries that name, and any name match in
the packs sequence guarantees a hit from the packs sequence. -/
theorem getPack_by_name (packs events : List RawPack) (pid : String) :
    (∀ pk, DataLoader.getPack packs events pid = some pk →
      pk.name = pid ∧ (pk ∈ packs ∨ pk ∈ events)) ∧
    (DataLoader.getPack packs events pid = none →
      (∀ pk ∈ packs, pk.name ≠ pid) ∧ (∀ pk ∈ events, pk.name ≠ pid)) ∧
    (∀ pk ∈ packs, pk.name = pid →
      ∃ q, DataLoader.getPack packs events pid = some q ∧ q ∈ packs) := by
  refine ⟨?_, ?_, ?_⟩
  · intro pk hpk
    unfold DataLoader.getPack at hpk
    cases hf : packs.find? (fun p => p.name == pid) with
    | some q =>
      rw [hf] at hpk
      cases hpk
      exact ⟨by simpa using List.find?_some hf, Or.inl (List.mem_of_find?_eq_some hf)⟩
    | none =>
      rw [hf] at hpk
      exact ⟨by simpa using List.find?_some hpk, Or.inr (List.mem_of_find?_eq_some hpk)⟩
  · intro hnone
    unfold DataLoader.getPack at hnone
    cases hf : packs.find? (fun p => p.name == pid) with
    | some q => rw [hf] at hnone; cases hnone
    | none =>
      rw [hf] at hnone
      constructor
      · intro pk hmem
        have := List.find?_eq_none.mp hf pk hmem
        simpa using this
      · intro pk hmem
        have := List.find?_eq_none.mp hnone pk hmem
        simpa using this
  · intro pk hmem hname
    cases hf : packs.find? (fun p => p.name == pid) with
    | some q =>
      refine ⟨q, ?_, List.mem_of_find?_eq_some hf⟩
      unfold DataLoader.getPack
      rw [hf]
    | none =>
      exfalso
      have := List.find?_eq_none.mp hf pk hmem
      simp [hname] at this

/-- Witness for C8: the classic pack is found by its name from the packs
sequence. -/
theorem getPack_by_name_witness :
    ∃ q, DataLoader.getPack [pkClassic] [] "Classic" = some q ∧ q ∈ [pkClassic] :=
  (getPack_by_name [pkClassic] [] "Classic").2.2 pkClassic (by simp) rfl

section OccupancyLemmas

/-- An index read back from a first-empty-slot fill was either already
placed or is the newly placed one. -/
lemma mem_filterMap_fillFirstEmpty (v a : Nat) :
    ∀ l : List (Option Nat), a ∈ (fillFirstEmpty l v).filterMap id →
      a ∈ l.filterMap id ∨ a = v := by
  intro l
  induction l with
  | nil => intro h; simp [fillFirstEmpty] at h
  | cons o rest ih =>
    cases o with
    | none =>
      intro h
      simp only [fillFirstEmpty, List.filterMap_cons] at h ⊢
      simp only [id] at h ⊢
      rcases List.mem_cons.mp h with h1 | h1
      · exact Or.inr h1
      · exact Or.inl h1
    | some x =>
      intro h
      simp only [fillFirstEmpty, List.filterMap_cons] at h ⊢
      simp only [id] at h ⊢
      rcases List.mem_cons.mp h with h1 | h1
      · exact Or.inl (List.mem_cons.mpr (Or.inl h1))
      · rcases ih h1 with h2 | h2
        · exact Or.inl (List.mem_cons.mpr (Or.inr h2))
        · exact Or.inr h2

/-- Filling the first empty slot with an unplaced index preserves the
at-most-once occupancy of the assignment. -/
lemma fillFirstEmpty_nodup (v : Nat) :
    ∀ l : List (Option Nat), some v ∉ l → (l.filterMap id).Nodup →
      ((fillFirstEmpty l v).filterMap id).Nodup := by
  intro l
  induction l with
  | nil => intro _ _; simp [fillFirstEmpty]
  | cons o rest ih =>
    cases o with
    | none =>
      intro hv h
      simp only [fillFirstEmpty, List.filterMap_cons, id] at h ⊢
      rw [List.nodup_cons]
      refine ⟨?_, h⟩
      intro hmem
      have : some v ∈ rest := by simpa using hmem
      exact hv (List.mem_cons.mpr (Or.inr this))
    | some x =>
      intro hv h
      simp only [fillFirstEmpty, List.filterMap_cons, id] at h ⊢
      rw [List.nodup_cons] at h ⊢
      refine ⟨?_, ih (fun hm => hv (List.mem_cons.mpr (Or.inr hm))) h.2⟩
      intro hmem
      rcases mem_filterMap_fillFirstEmpty v x rest hmem with h1 | h1
      · exact h.1 h1
      · exact hv (List.mem_cons.mpr (Or.inl (by rw [h1])))

/-- The keyboard scan of `Game.handleInput` only ever returns an index that
is not currently placed. -/
lemma findKeyAux_not_selected (g : GameState) (key : Char) :
    ∀ fuel i f, Game.findKeyAux g key fuel i = some f →
      ¬ Game.isScrambledIndexSelected g f := by
  intro fuel
  induction fuel with
  | zero => intro i f h; cases h
  | succ fuel ih =>
    intro i f h
    unfold Game.findKeyAux at h
    split at h
    case isTrue =>
      split at h
      case isTrue hc => cases h; exact hc.2
      case isFalse => exact ih (i + 1) f h
    case isFalse => cases h

end OccupancyLemmas

/-- C10: `Game.selectLetter` does not itself check that the given pool
index is unplaced: on a concrete state with an empty slot and index 0
already placed, selecting 0 again makes index 0 occupy two slots; the
at-most-once occupancy is preserved only because the keyboard caller of
`Game.handleInput` filters on `isScrambledIndexSelected` before calling
`selectLetter` (as the tile click wiring also does). -/
theorem selectLetter_unguarded :
    (Game.isScrambledIndexSelected gDup 0 ∧ none ∈ gDup.selectedIndices ∧
      (Game.selectLetter gDup 0).selectedIndices = [some 0, some 0]) ∧
    (∀ (g : GameState) (key : Char), AtMostOnce g →
      AtMostOnce (Game.handleLetterKey g key)) := by
  constructor
  · exact ⟨by decide, by decide, by decide⟩
  · intro g key h
    unfold Game.handleLetterKey
    cases hf : Game.findKeyAux g key g.scrambledLetters.length 0 with
    | none => exact h
    | some i =>
      have hns := findKeyAux_not_selected g key g.scrambledLetters.length 0 i hf
      show ((fillFirstEmpty g.selectedIndices i).filterMap id).Nodup
      exact fillFirstEmpty_nodup i g.selectedIndices hns h

/-- Witness for C10: the guarded keyboard path keeps occupancy intact on a
fresh attempt. -/
theorem selectLetter_unguarded_witness : AtMostOnce (Game.handleLetterKey gFresh 'B') :=
  selectLetter_unguarded.2 gFresh 'B' (by decide)

section WonLemmas

/-- Filling the first empty slot of an assignment without empty slots
changes nothing. -/
lemma fillFirstEmpty_no_empty (v : Nat) :
    ∀ l : List (Option Nat), none ∉ l → fillFirstEmpty l v = l := by
  intro l
  induction l with
  | nil => intro _; rfl
  | cons o rest ih =>
    cases o with
    | none => intro hv; exact absurd (List.mem_cons.mpr (Or.inl rfl)) hv
    | some x =>
      intro hv
      show some x :: fillFirstEmpty rest v = some x :: rest
      rw [ih (fun hm => hv (List.mem_cons.mpr (Or.inr hm)))]

/-- The first-wrong-slot scan finds nothing when every slot in range is
already correct. -/
lemma findFixAux_none (g : GameState) :
    ∀ fuel i, (∀ k, k < g.targetWord.length → Game.slotNeedsFix g k = false) →
      Game.findFixAux g fuel i = none := by
  intro fuel
  induction fuel with
  | zero => intro i _; rfl
  | succ fuel ih =>
    intro i h
    unfold Game.findFixAux
    split
    case isTrue hlt => simp only [h i hlt]; simpa using ih (i + 1) h
    case isFalse => rfl

/-- On a won attempt every slot in range holds the globally correct
letter, so no slot needs fixing. -/
lemma won_slotNeedsFix_false (g : GameState) (hnn : none ∉ g.selectedIndices)
    (hcw : Game.currentWord g = g.targetWord) :
    ∀ k, k < g.targetWord.length → Game.slotNeedsFix g k = false := by
  have hlen : g.selectedIndices.length = g.targetWord.length := by
    have := congrArg List.length hcw
    simpa [Game.currentWord] using this
  intro k hk
  have hks : k < g.selectedIndices.length := by omega
  unfold Game.slotNeedsFix
  rw [List.getD_eq_getElem?_getD, List.getElem?_eq_getElem hks, Option.getD_some]
  rw [List.getD_eq_getElem?_getD, List.getElem?_eq_getElem hk, Option.getD_some]
  cases hsel : g.selectedIndices[k] with
  | none => exact absurd (hsel ▸ List.getElem_mem hks) hnn
  | some idx =>
    have hck : k < (Game.currentWord g).length := by
      simpa [Game.currentWord] using hks
    have h2 : (Game.currentWord g).get ⟨k, hck⟩ = charOfPool g.scrambledLetters idx := by
      simp only [List.get_eq_getElem, Game.currentWord, List.getElem_map, hsel]
    have htk : g.targetWord[k] = charOfPool g.scrambledLetters idx :=
      (List.getElem_of_eq hcw hck).symm.trans h2
    rw [htk]
    simp [corr]

/-- On a won attempt the hint body changes nothing. -/
lemma won_useHintBody_eq (g : GameState) (hnn : none ∉ g.selectedIndices)
    (hcw : Game.currentWord g = g.targetWord) : Game.useHintBody g = g := by
  unfold Game.useHintBody
  have hfix : Game.firstFix g = none :=
    findFixAux_none g g.targetWord.length 0 (won_slotNeedsFix_false g hnn hcw)
  rw [hfix]

end WonLemmas

/-- C9 counterexample: on a concrete won attempt, `Game.deselectLetter`
still clears a slot, so the source does not make Won terminal at the
attempt level (the UI modal is the only barrier). -/
theorem won_not_terminal :
    Game.checkWin gWon = WinResult.Win ∧ Game.deselectLetter gWon 0 ≠ gWon := by
  refine ⟨by decide, by decide⟩

/-- C9 amended: once an attempt has reached Win, `Game.selectLetter` is a
no-op (no slot is empty) and `Game.useHint` leaves the attempt state
unchanged whatever the coin balance (every slot is already correct), but
`Game.deselectLetter` does mutate the won attempt, so terminality holds
only for the selection and hint operations. -/
theorem won_select_hint_frozen (g : GameState) (h : Game.checkWin g = WinResult.Win) :
    (∀ i, Game.selectLetter g i = g) ∧
    (∀ p : ProgressState, (Game.useHint p g).2 = g) := by
  have hparts : none ∉ g.selectedIndices ∧ Game.currentWord g = g.targetWord := by
    unfold Game.checkWin at h
    split at h
    case isTrue => cases h
    case isFalse hnn =>
      split at h
      case isTrue hcw => exact ⟨hnn, hcw⟩
      case isFalse => cases h
  constructor
  · intro i
    show { g with selectedIndices := fillFirstEmpty g.selectedIndices i } = g
    rw [fillFirstEmpty_no_empty i g.selectedIndices hparts.1]
  · intro p
    unfold Game.useHint
    have hbody := won_useHintBody_eq g hparts.1 hparts.2
    rw [hbody]
    show (if (State.deductCoins 20 p).1 = true
        then ((State.deductCoins 20 p).2, g) else ((State.deductCoins 20 p).2, g)).2 = g
    rw [ite_self]

/-- Witness for C9 at the concrete won attempt. -/
theorem won_select_hint_frozen_witness :
    Game.checkWin gWon = WinResult.Win ∧ Game.selectLetter gWon 1 = gWon ∧
      (Game.useHint pTwenty gWon).2 = gWon :=
  ⟨by decide, (won_select_hint_frozen gWon (by decide)).1 1,
   (won_select_hint_frozen gWon (by decide)).2 pTwenty⟩

section HintLemmas

/-- Clearing a placed index preserves the assignment length. -/
lemma clearFirst_length (v : Nat) : ∀ l : List (Option Nat),
    (clearFirst l v).length = l.length := by
  intro l
  induction l with
  | nil => rfl
  | cons o rest ih =>
    cases o with
    | none => show (none :: clearFirst rest v).length = _; simp [ih]
    | some x =>
      show (if x = v then none :: rest else some x :: clearFirst rest v).length = _
      split
      · rfl
      · simp [ih]

/-- Clearing an index that is not placed changes nothing. -/
lemma clearFirst_of_not_mem (v : Nat) : ∀ l : List (Option Nat),
    some v ∉ l → clearFirst l v = l := by
  intro l
  induction l with
  | nil => intro _; rfl
  | cons o rest ih =>
    cases o with
    | none =>
      intro hv
      show none :: clearFirst rest v = none :: rest
      rw [ih (fun hm => hv (List.mem_cons.mpr (Or.inr hm)))]
    | some x =>
      intro hv
      have hx : x ≠ v := fun hxv =>
        hv (List.mem_cons.mpr (Or.inl (by rw [hxv])))
      show (if x = v then none :: rest else some x :: clearFirst rest v) = _
      rw [if_neg hx, ih (fun hm => hv (List.mem_cons.mpr (Or.inr hm)))]

/-- Each slot of a cleared assignment holds its old content or nothing. -/
lemma clearFirst_getD (v : Nat) : ∀ (l : List (Option Nat)) (k : Nat),
    (clearFirst l v).getD k none = l.getD k none ∨
      (clearFirst l v).getD k none = none := by
  intro l
  induction l with
  | nil => intro k; exact Or.inl rfl
  | cons o rest ih =>
    intro k
    cases o with
    | none =>
      show ((none :: clearFirst rest v).getD k none = _ ∨ _)
      cases k with
      | zero => exact Or.inl rfl
      | succ k => exact ih k
    | some x =>
      show ((if x = v then none :: rest else some x :: clearFirst rest v).getD k none =
          (some x :: rest).getD k none ∨
        (if x = v then none :: rest else some x :: clearFirst rest v).getD k none = none)
      split
      · cases k with
        | zero => exact Or.inr rfl
        | succ k => exact Or.inl rfl
      · cases k with
        | zero => exact Or.inl rfl
        | succ k => exact ih k

/-- Clearing a slot never increases the number of correct slots. -/
lemma countTrue_clearFirst_le (pool : List Letter) (v : Nat) :
    ∀ (sel : List (Option Nat)) (target : List Char),
      countTrue (corrList pool (clearFirst sel v) target) ≤
        countTrue (corrList pool sel target) := by
  intro sel
  induction sel with
  | nil => intro target; exact Nat.le_refl _
  | cons o rest ih =>
    intro target
    cases target with
    | nil => simp [corrList]
    | cons c cs =>
      cases o with
      | none =>
        show countTrue (corrList pool (none :: clearFirst rest v) (c :: cs)) ≤ _
        show (if corr pool none c then 1 else 0) + countTrue (corrList pool (clearFirst rest v) cs) ≤
          (if corr pool none c then 1 else 0) + countTrue (corrList pool rest cs)
        exact Nat.add_le_add_left (ih cs) _
      | some x =>
        by_cases hx : x = v
        · show countTrue (corrList pool
            (if x = v then none :: rest else some x :: clearFirst rest v) (c :: cs)) ≤ _
          rw [if_pos hx]
          show (if corr pool none c then 1 else 0) + countTrue (corrList pool rest cs) ≤
            (if corr pool (some x) c then 1 else 0) + countTrue (corrList pool rest cs)
          have h1 : (if corr pool none c then 1 else 0) = 0 := rfl
          rw [h1]
          omega
        · show countTrue (corrList pool
            (if x = v then none :: rest else some x :: clearFirst rest v) (c :: cs)) ≤ _
          rw [if_neg hx]
          show (if corr pool (some x) c then 1 else 0) +
              countTrue (corrList pool (clearFirst rest v) cs) ≤
            (if corr pool (some x) c then 1 else 0) + countTrue (corrList pool rest cs)
          exact Nat.add_le_add_left (ih cs) _

/-- Clearing a slot loses at most one correct slot. -/
lemma countTrue_clearFirst_ge (pool : List Letter) (v : Nat) :
    ∀ (sel : List (Option Nat)) (target : List Char),
      countTrue (corrList pool sel target) ≤
        countTrue (corrList pool (clearFirst sel v) target) + 1 := by
  intro sel
  induction sel with
  | nil => intro target; exact Nat.le_succ _
  | cons o rest ih =>
    intro target
    cases target with
    | nil => simp [corrList]
    | cons c cs =>
      cases o with
      | none =>
        show (if corr pool none c then 1 else 0) + countTrue (corrList pool rest cs) ≤
          ((if corr pool none c then 1 else 0) +
            countTrue (corrList pool (clearFirst rest v) cs)) + 1
        have := ih cs
        omega
      | some x =>
        by_cases hx : x = v
        · show (if corr pool (some x) c then 1 else 0) + countTrue (corrList pool rest cs) ≤
            countTrue (corrList pool
              (if x = v then none :: rest else some x :: clearFirst rest v) (c :: cs)) + 1
          rw [if_pos hx]
          show _ ≤ ((if corr pool none c then 1 else 0) + countTrue (corrList pool rest cs)) + 1
          have h1 : (if corr pool none c then 1 else 0) = 0 := rfl
          have h2 : (if corr pool (some x) c then 1 else 0) ≤ 1 := by
            split
            · exact Nat.le_refl 1
            · exact Nat.zero_le 1
          omega
        · show (if corr pool (some x) c then 1 else 0) + countTrue (corrList pool rest cs) ≤
            countTrue (corrList pool
              (if x = v then none :: rest else some x :: clearFirst rest v) (c :: cs)) + 1
          rw [if_neg hx]
          show _ ≤ ((if corr pool (some x) c then 1 else 0) +
            countTrue (corrList pool (clearFirst rest v) cs)) + 1
          have := ih cs
          omega

/-- Setting a not-currently-correct slot to a pool letter of the required
character raises the number of correct slots by exactly one. -/
lemma countTrue_corr_set (pool : List Letter) :
    ∀ (t : Nat) (sel : List (Option Nat)) (target : List Char) (f : Nat),
      t < sel.length → t < target.length →
      corr pool (sel.getD t none) (target.getD t '?') = false →
      charOfPool pool f = target.getD t '?' →
      countTrue (corrList pool (sel.set t (some f)) target) =
        countTrue (corrList pool sel target) + 1 := by
  intro t
  induction t with
  | zero =>
    intro sel target f hs ht hcorr hchar
    cases sel with
    | nil => simp at hs
    | cons o rest =>
      cases target with
      | nil => simp at ht
      | cons c cs =>
        show (if corr pool (some f) c then 1 else 0) + countTrue (corrList pool rest cs) =
          ((if corr pool o c then 1 else 0) + countTrue (corrList pool rest cs)) + 1
        have h1 : corr pool (some f) c = true := by
          show (charOfPool pool f == c) = true
          have : (List.getD (c :: cs) 0 '?') = c := rfl
          rw [this] at hchar
          rw [hchar]
          exact beq_self_eq_true c
        have h2 : corr pool o c = false := hcorr
        rw [h1, h2]
        show 1 + countTrue (corrList pool rest cs) = (0 + countTrue (corrList pool rest cs)) + 1
        omega
  | succ t ih =>
    intro sel target f hs ht hcorr hchar
    cases sel with
    | nil => simp at hs
    | cons o rest =>
      cases target with
      | nil => simp at ht
      | cons c cs =>
        show (if corr pool o c then 1 else 0) + countTrue (corrList pool (rest.set t (some f)) cs) =
          ((if corr pool o c then 1 else 0) + countTrue (corrList pool rest cs)) + 1
        have := ih rest cs f (by simpa using hs) (by simpa using ht) hcorr hchar
        omega

/-- The first-wrong-slot scan returns a slot that needs fixing, inside the
target word. -/
lemma findFixAux_some (g : GameState) : ∀ fuel i t,
    Game.findFixAux g fuel i = some t →
      Game.slotNeedsFix g t = true ∧ t < g.targetWord.length := by
  intro fuel
  induction fuel with
  | zero => intro i t h; cases h
  | succ fuel ih =>
    intro i t h
    unfold Game.findFixAux at h
    split at h
    case isTrue hlt =>
      split at h
      case isTrue hneed => cases h; exact ⟨hneed, hlt⟩
      case isFalse => exact ih (i + 1) t h
    case isFalse => cases h

/-- The pool scan of the hint only ever returns an index carrying the
searched character. -/
lemma hintAux_char (g : GameState) (c : Char) : ∀ fuel i used f,
    (∀ u, used = some u → charOfPool g.scrambledLetters u = c) →
    Game.hintAux g c fuel i used = some f →
      charOfPool g.scrambledLetters f = c := by
  intro fuel
  induction fuel with
  | zero =>
    intro i used f hused h
    exact hused f h
  | succ fuel ih =>
    intro i used f hused h
    unfold Game.hintAux at h
    split at h
    case isTrue =>
      split at h
      case isTrue hc =>
        split at h
        case isTrue => exact ih (i + 1) (some i) f (fun u hu => by cases hu; exact hc) h
        case isFalse => cases h; exact hc
      case isFalse => exact ih (i + 1) used f hused h
    case isFalse => exact hused f h

end HintLemmas

/-- C3 counterexample: with the hint cost available, a hint on a reachable
attempt (target AAB, both pool copies of A placed, one of them correctly)
changes the attempt but leaves the number of correctly-placed slots at 1:
the fallback moves the letter out of a correctly solved slot.  This
refutes the strict increase by exactly one for every state-changing hint. -/
theorem useHint_not_plus_one :
    20 ≤ pTwenty.coins ∧ (Game.useHint pTwenty gHintEx).2 ≠ gHintEx ∧
    correctCount (Game.useHint pTwenty gHintEx).2 = correctCount gHintEx := by
  refine ⟨by decide, by decide, by decide⟩

/-- C3 amended: with the coin precondition satisfied and a well-formed
assignment (one slot per target character), a hint never decreases the
number of correctly-placed slots, increases it by at most one, and
increases it by exactly one whenever the chosen pool letter was not
already placed in some slot (the non-fallback case). -/
theorem useHint_correct_monotone (p : ProgressState) (g : GameState)
    (hlen : g.selectedIndices.length = g.targetWord.length) (hc : 20 ≤ p.coins) :
    correctCount g ≤ correctCount (Game.useHint p g).2 ∧
    correctCount (Game.useHint p g).2 ≤ correctCount g + 1 ∧
    (∀ t f, Game.firstFix g = some t →
      Game.findHintIdx g (g.targetWord.getD t '?') = some f →
      ¬ Game.isScrambledIndexSelected g f →
      correctCount (Game.useHint p g).2 = correctCount g + 1) := by
  have hu : (Game.useHint p g).2 = Game.useHintBody g := by
    unfold Game.useHint State.deductCoins
    rw [if_pos hc]
    rfl
  rw [hu]
  have hg : correctCount g =
      countTrue (corrList g.scrambledLetters g.selectedIndices g.targetWord) := rfl
  rcases hfix : Game.firstFix g with _ | t
  · have hb : Game.useHintBody g = g := by
      unfold Game.useHintBody
      rw [hfix]
    rw [hb]
    refine ⟨Nat.le_refl _, Nat.le_succ _, ?_⟩
    intro t f hft _ _
    exact Option.noConfusion hft
  · rcases hhint : Game.findHintIdx g (g.targetWord.getD t '?') with _ | f
    · have hb : Game.useHintBody g = g := by
        simp only [Game.useHintBody, hfix, hhint]
      rw [hb]
      refine ⟨Nat.le_refl _, Nat.le_succ _, ?_⟩
      intro t' f' hft' hhint' _
      obtain rfl : t' = t := (Option.some.inj hft').symm
      rw [hhint'] at hhint
      exact Option.noConfusion hhint
    · have hb : Game.useHintBody g =
          { g with selectedIndices :=
              (clearFirst g.selectedIndices f).set t (some f) } := by
        simp only [Game.useHintBody, hfix, hhint]
      rw [hb]
      obtain ⟨hneed, htlt⟩ := findFixAux_some g g.targetWord.length 0 t hfix
      have hchar : charOfPool g.scrambledLetters f = g.targetWord.getD t '?' :=
        hintAux_char g (g.targetWord.getD t '?') g.scrambledLetters.length 0 none f
          (fun u hu => by cases hu) hhint
      have hts : t < (clearFirst g.selectedIndices f).length := by
        rw [clearFirst_length]
        omega
      have hcorrF : corr g.scrambledLetters (g.selectedIndices.getD t none)
          (g.targetWord.getD t '?') = false := by
        have := hneed
        unfold Game.slotNeedsFix at this
        simpa using this
      have hcorrCF : corr g.scrambledLetters ((clearFirst g.selectedIndices f).getD t none)
          (g.targetWord.getD t '?') = false := by
        rcases clearFirst_getD f g.selectedIndices t with hcf | hcf
        · rw [hcf]; exact hcorrF
        · rw [hcf]; rfl
      have hset := countTrue_corr_set g.scrambledLetters t
        (clearFirst g.selectedIndices f) g.targetWord f hts htlt hcorrCF hchar
      have hcc : correctCount
          { g with selectedIndices := (clearFirst g.selectedIndices f).set t (some f) } =
          countTrue (corrList g.scrambledLetters
            (clearFirst g.selectedIndices f) g.targetWord) + 1 := hset
      refine ⟨?_, ?_, ?_⟩
      · rw [hcc]
        exact countTrue_clearFirst_ge g.scrambledLetters f g.selectedIndices g.targetWord
      · rw [hcc]
        have := countTrue_clearFirst_le g.scrambledLetters f g.selectedIndices g.targetWord
        omega
      · intro t' f' hft' hhint' hnsel
        obtain rfl : t' = t := (Option.some.inj hft').symm
        have hff : f' = f := (Option.some.inj (hhint.symm.trans hhint')).symm
        rw [hcc]
        have hnm : some f ∉ g.selectedIndices := hff ▸ hnsel
        rw [clearFirst_of_not_mem f g.selectedIndices hnm, hg]

/-- Witness for C3 on a fresh two-letter attempt with exactly the hint
cost available. -/
theorem useHint_correct_monotone_witness :
    correctCount gFresh ≤ correctCount (Game.useHint pTwenty gFresh).2 ∧
    correctCount (Game.useHint pTwenty gFresh).2 ≤ correctCount gFresh + 1 :=
  ⟨(useHint_correct_monotone pTwenty gFresh rfl (by decide)).1,
   (useHint_correct_monotone pTwenty gFresh rfl (by decide)).2.1⟩
